import Mathlib

set_option linter.unreachableTactic false
set_option linter.unusedTactic false

/-!
Shallow embedding of the core of the dancers-split-app repository
(personal-record detection, progressive-overload suggestions, weekly
aggregation, unit conversion, plan adherence), translated from the
TypeScript sources.

Modelling conventions:
* JavaScript numbers are modelled as exact rationals (`ℚ`); integer
  counters (`sets`, `reps`) as `ℕ`, matching the documented assumption
  that they are non-negative integers.
* A calendar date string "YYYY-MM-DD" is modelled as its epoch-day
  number (`ℤ`, days since 1970-01-01, which was a Thursday). The
  "YYYY-MM-DD" rendering is injective and order-preserving, so the
  lexicographic comparisons the source performs on date strings become
  integer comparisons here.
* `Math.round` is `round : ℚ → ℤ` (both are `⌊x + 1/2⌋`).
* JavaScript objects used as string-keyed maps with insertion-ordered
  keys are modelled as association lists, updated in place exactly as
  the source does.
-/

/-- WorkoutEntry from src/lib/pr.ts (the shared log-entry shape).
`date` is the epoch-day number of the "YYYY-MM-DD" date string. -/
structure WorkoutEntry where
  id : String
  date : Int
  name : String
  sets : Nat
  reps : Nat
  weightKg : Option ℚ
  notes : Option String
  isPRMaxWeight : Option Bool
  isPRVolume : Option Bool
deriving DecidableEq

/-- Per-exercise record cell of `PRMap` from src/lib/pr.ts. -/
structure PRRec where
  maxWeightKg : Option ℚ
  maxVolumeKg : Option ℚ
deriving DecidableEq

/-- The empty record cell (`{}` in the source). -/
def emptyRec : PRRec := ⟨none, none⟩

/-- Volume of one entry as computed in src/lib/pr.ts lines 25 and 44:
`w.reps * (w.weightKg ?? 1)`. -/
def entryVol (w : WorkoutEntry) : ℚ :=
  (w.reps : ℚ) * (w.weightKg.getD 1)

/-- One iteration of the `for` loop of `computePRs` (src/lib/pr.ts
lines 24-32): update the map cell for `w.name`. -/
def prStep (m : String → Option PRRec) (w : WorkoutEntry) : String → Option PRRec :=
  let vol := entryVol w
  let r0 := (m w.name).getD emptyRec
  let r1 :=
    match w.weightKg with
    | none => r0
    | some wt =>
      match r0.maxWeightKg with
      | none => { r0 with maxWeightKg := some wt }
      | some mw => if wt > mw then { r0 with maxWeightKg := some wt } else r0
  let r2 :=
    match r1.maxVolumeKg with
    | none => { r1 with maxVolumeKg := some vol }
    | some mv => if vol > mv then { r1 with maxVolumeKg := some vol } else r1
  fun n => if n = w.name then some r2 else m n

/-- computePRs from src/lib/pr.ts lines 22-34: fold the history into a
per-exercise map of maximum weight and maximum volume. -/
def computePRs (entries : List WorkoutEntry) : String → Option PRRec :=
  entries.foldl prStep (fun _ => none)

/-- markPRsBeforeInsert from src/lib/pr.ts lines 37-52: annotate each
incoming entry with its PR flags against the records of `history`. -/
def markPRsBeforeInsert (history incoming : List WorkoutEntry) : List WorkoutEntry :=
  let prs := computePRs history
  incoming.map fun w =>
    let prev := (prs w.name).getD emptyRec
    let vol := entryVol w
    let bW : Bool :=
      match w.weightKg, prev.maxWeightKg with
      | none, _ => false
      | some _, none => true
      | some wt, some mw => decide (wt > mw)
    let bV : Bool :=
      match prev.maxVolumeKg with
      | none => true
      | some mv => decide (vol > mv)
    { w with isPRMaxWeight := some bW, isPRVolume := some bV }

/-- Max recorded weight for exercise `n` in the computed PR map. -/
def priorMaxW (H : List WorkoutEntry) (n : String) : Option ℚ :=
  ((computePRs H n).getD emptyRec).maxWeightKg

/-- Max recorded volume for exercise `n` in the computed PR map. -/
def priorMaxV (H : List WorkoutEntry) (n : String) : Option ℚ :=
  ((computePRs H n).getD emptyRec).maxVolumeKg

/-- Projection of a `WorkoutEntry` to all fields except the two PR
flags (used to state that marking only writes the flags). -/
def nonFlagFields (w : WorkoutEntry) :
    String × Int × String × Nat × Nat × Option ℚ × Option String :=
  (w.id, w.date, w.name, w.sets, w.reps, w.weightKg, w.notes)

/-- Display unit, `type Unit = "kg" | "lb"` from the sources (named
`WUnit` because `Unit` is taken in Lean). -/
inductive WUnit
  | kg
  | lb
deriving DecidableEq

/-- KG_PER_LB = 0.45359237 from src/types.ts line 154. -/
def KG_PER_LB : ℚ := 45359237 / 100000000

/-- toKg from src/types.ts lines 155-157. -/
def toKg (value : ℚ) (unit : WUnit) : ℚ :=
  match unit with
  | .lb => value * KG_PER_LB
  | .kg => value

/-- fromKg from src/types.ts lines 158-160 (uses `KG_PER_LB`). -/
def fromKg (kg : ℚ) (unit : WUnit) : ℚ :=
  match unit with
  | .lb => kg / KG_PER_LB
  | .kg => kg

/-- PO_INCR = \x7b kg: 2.5, lb: 5 \x7d from src/types.ts line 162. -/
def PO_INCR (unit : WUnit) : ℚ :=
  match unit with
  | .kg => 5 / 2
  | .lb => 5

/-- The kilogram increment `PO_INCR[unit] === 5 ? 5 * KG_PER_LB : 2.5`
used at src/types.ts lines 791 and 1028 (and, written directly as
`unit === "lb" ? 5 * 0.45359237 : 2.5`, at line 708). -/
def poIncKg (unit : WUnit) : ℚ :=
  if PO_INCR unit = 5 then 5 * KG_PER_LB else 5 / 2

/-- roundDisplayUnit from src/types.ts lines 245-249:
`Math.round(n / step) * step` with step 0.5 for kg and 1 for lb. -/
def roundDisplayUnit (n : ℚ) (unit : WUnit) : ℚ :=
  let step : ℚ := match unit with | .kg => 1 / 2 | .lb => 1
  ((round (n / step) : ℤ) : ℚ) * step

/-- getProgressiveTarget from src/types.ts lines 295-311 (a suggestion
helper that takes no display unit; its weight increment is a flat
`Math.round((lastWeight + 5) * 10) / 10`). -/
def getProgressiveTarget (lastReps : Nat) (lastWeight : ℚ) (repMin repMax : Nat) :
    Nat × ℚ :=
  if lastReps < repMax then (lastReps + 1, lastWeight)
  else (repMin, ((round ((lastWeight + 5) * 10) : ℤ) : ℚ) / 10)

/-- Per-exercise suggestion core of buildSessionPlan, src/types.ts
lines 779-811 (textually identical logic appears in
WorkoutPreview.addExercise, src/components/ProfileTab.tsx lines
320-348). Given the most recent matching entry (if any), the rep range
`[repLow, repHigh]` and the display unit, returns the prefilled
`(nextReps, nextWeightUnit)`; `none` models the blank weight `""`. -/
def buildSessionPlan (prev : Option WorkoutEntry) (repLow repHigh : Nat)
    (unit : WUnit) : Nat × Option ℚ :=
  match prev with
  | none => (repLow, none)
  | some p =>
    if repHigh ≠ 0 ∧ p.reps ≥ repHigh then
      (repLow, p.weightKg.map fun pw =>
        roundDisplayUnit (fromKg (pw + poIncKg unit) unit) unit)
    else
      (p.reps + 1, p.weightKg.map fun pw =>
        roundDisplayUnit (fromKg pw unit) unit)

/-- Suggestion fields attached to one set by applyProgressiveOverload. -/
structure POSuggestion where
  suggestedReps : Option Nat
  suggestedWeight : Option ℚ
deriving DecidableEq

/-- Per-set core of applyProgressiveOverload, src/types.ts lines
697-721. `targetRange` stands for
`getTargetRepRangeForExercise(exercise.name)` (the rep range parsed
from the exercise name, `none` when the name carries no range);
`setReps` is `set.reps`, with `none` modelling the blank `""`. -/
def applyProgressiveOverload (prev : WorkoutEntry) (targetRange : Option (Nat × Nat))
    (setReps : Option Nat) (unit : WUnit) : POSuggestion :=
  match setReps with
  | none => ⟨none, none⟩
  | some sr =>
    let topOfRange := (targetRange.map Prod.snd).getD sr
    if prev.reps < topOfRange then
      ⟨some (prev.reps + 1), none⟩
    else
      match prev.weightKg with
      | some pw =>
        let incKg := if unit = WUnit.lb then 5 * KG_PER_LB else 5 / 2
        ⟨some ((targetRange.map Prod.fst).getD sr),
          some (roundDisplayUnit (fromKg (pw + incKg) unit) unit)⟩
      | none => ⟨none, none⟩

/-- Reps prefill of the manual-log form, src/types.ts lines 998-1016:
with a prior entry, reset to `repMin` at or above `repMax`, else one
more rep; with no prior entry, `repMin`. -/
def manualPrefillReps (prev : Option WorkoutEntry) (repMin repMax : Nat) : Nat :=
  match prev with
  | none => repMin
  | some p => if p.reps ≥ repMax then repMin else p.reps + 1

/-- Weight prefill of the manual-log form, src/types.ts lines
1018-1038: increment at or above the range's max, otherwise carry the
prior weight, always converted to the display unit and rounded;
nothing is prefilled when the prior entry has no recorded weight. -/
def manualPrefillWeight (prev : WorkoutEntry) (repRange : Option (Nat × Nat))
    (unit : WUnit) : Option ℚ :=
  match repRange with
  | some (_, hi) =>
    if prev.reps ≥ hi then
      match prev.weightKg with
      | some pw => some (roundDisplayUnit (fromKg (pw + poIncKg unit) unit) unit)
      | none => none
    else
      match prev.weightKg with
      | some pw => some (roundDisplayUnit (fromKg pw unit) unit)
      | none => none
  | none =>
    match prev.weightKg with
    | some pw => some (roundDisplayUnit (fromKg pw unit) unit)
    | none => none

namespace LibUtils

/-- fromKg from src/lib/utils.ts lines 9-11: `kg / 0.453592` for lb
(note the ratio differs from `KG_PER_LB = 0.45359237`). -/
def fromKg (kg : ℚ) (unit : WUnit) : ℚ :=
  match unit with
  | .kg => kg
  | .lb => kg / (453592 / 1000000)

/-- WeeklyPR from src/lib/utils.ts lines 12-16. `week` is the epoch
day of the bucket's Sunday (the source formats it "YYYY-MM-DD"). -/
structure WeeklyPR where
  week : Int
  volume : ℚ
  weight : ℚ
deriving DecidableEq

/-- JavaScript `Date.getDay()` on an epoch day: 0 = Sunday. Epoch day
0 (1970-01-01) was a Thursday, weekday 4. -/
def weekday (d : Int) : Int := (d + 4).emod 7

/-- getWeekLabel from src/lib/utils.ts lines 63-71:
`d.getDate() - d.getDay()`, i.e. the entry's date minus its weekday
number — the Sunday starting the entry's week (returned as an epoch
day; the source formats that Sunday as "YYYY-MM-DD"). -/
def getWeekLabel (d : Int) : Int := d - weekday d

/-- Update of the week-keyed inner object `grouped[exercise]`
(src/lib/utils.ts lines 34-49): first sight of a week inserts the
record, later sights take the componentwise max of volume and
weight. -/
def updWeek (inner : List (Int × WeeklyPR)) (wk : Int) (volume weight : ℚ) :
    List (Int × WeeklyPR) :=
  match inner with
  | [] => [(wk, ⟨wk, volume, weight⟩)]
  | (k, pr) :: t =>
    if k = wk then (k, ⟨pr.week, max pr.volume volume, max pr.weight weight⟩) :: t
    else (k, pr) :: updWeek t wk volume weight

/-- Update of the outer exercise-keyed object `grouped`
(src/lib/utils.ts lines 33-49); a new exercise key is appended (JS
insertion order). -/
def updEx (g : List (String × List (Int × WeeklyPR))) (ex : String) (wk : Int)
    (volume weight : ℚ) : List (String × List (Int × WeeklyPR)) :=
  match g with
  | [] => [(ex, [(wk, ⟨wk, volume, weight⟩)])]
  | (n, inner) :: t =>
    if n = ex then (n, updWeek inner wk volume weight) :: t
    else (n, inner) :: updEx t ex wk volume weight

/-- One iteration of the `for` loop of aggregatePRsByWeek
(src/lib/utils.ts lines 23-50). The source skips entries failing
`!workout.name || workout.reps === undefined || !workout.sets`; with
`reps : ℕ` the undefined check cannot fire, leaving empty name or zero
sets. Volume is `(weightKg ?? 0) * reps * sets`. -/
def aggStep (g : List (String × List (Int × WeeklyPR))) (w : WorkoutEntry) :
    List (String × List (Int × WeeklyPR)) :=
  if w.name = "" ∨ w.sets = 0 then g
  else updEx g w.name (getWeekLabel w.date)
    ((w.weightKg.getD 0) * (w.reps : ℚ) * (w.sets : ℚ)) (w.weightKg.getD 0)

/-- Ascending order on weekly records by week key, the comparator
`a.week.localeCompare(b.week)` of src/lib/utils.ts line 55 ("YYYY-MM-DD"
strings compare lexicographically exactly as their days compare). -/
def byWeekLE (a b : WeeklyPR) : Prop := a.week ≤ b.week

instance : DecidableRel byWeekLE := fun a b =>
  inferInstanceAs (Decidable (a.week ≤ b.week))

instance : IsTotal WeeklyPR byWeekLE := ⟨fun a b => le_total a.week b.week⟩

instance : IsTrans WeeklyPR byWeekLE := ⟨fun _ _ _ h1 h2 => le_trans h1 h2⟩

/-- aggregatePRsByWeek from src/lib/utils.ts lines 18-61: group
surviving entries by exercise then week, reduce by max, then emit each
exercise's records sorted ascending by week key. -/
def aggregatePRsByWeek (workouts : List WorkoutEntry) :
    List (String × List WeeklyPR) :=
  let grouped := workouts.foldl aggStep []
  grouped.map fun p => (p.1, List.insertionSort byWeekLE (p.2.map Prod.snd))

end LibUtils

/-- countDaysBetween from ProgressTab (src/unnamed/part_000 lines
93-98): the absolute day difference of the two dates (`Math.ceil` is
the identity on the whole-day differences produced by midnight
timestamps). -/
def countDaysBetween (startDay endDay : Int) : Nat := (endDay - startDay).natAbs

/-- The adherence fields of planMetrics (src/unnamed/part_000 lines
149-233) relevant to completion rate. `expectedDaysPerWeek` stands for
`daysPerWeek || activePlan.daysPerWeek || 4` resolved by the caller. -/
structure PlanMetrics where
  daysSinceStart : Nat
  weeksElapsed : Nat
  expectedWorkouts : Nat
  completedWorkouts : Nat
  completionRate : ℤ
deriving DecidableEq

/-- planMetrics core (src/unnamed/part_000 lines 154-179):
`weeksElapsed = floor(daysSinceStart / 7)`, `expectedWorkouts =
weeksElapsed * expectedDaysPerWeek`, `completedWorkouts` counts
distinct logged dates, and the completion rate is the guarded
`Math.round((completed / expected) * 100)`. -/
def planMetrics (workouts : List WorkoutEntry) (programStartDay todayDay : Int)
    (expectedDaysPerWeek : Nat) : PlanMetrics :=
  let daysSinceStart := countDaysBetween programStartDay todayDay
  let weeksElapsed := daysSinceStart / 7
  let expectedWorkouts := weeksElapsed * expectedDaysPerWeek
  let completedWorkouts := (workouts.map (·.date)).dedup.length
  let completionRate : ℤ :=
    if 0 < expectedWorkouts then
      round (((completedWorkouts : ℚ) / (expectedWorkouts : ℚ)) * 100)
    else 0
  ⟨daysSinceStart, weeksElapsed, expectedWorkouts, completedWorkouts, completionRate⟩

/-- Well-formedness of the grouped association structure: exercise keys are
distinct, and within each exercise the week keys are distinct and every
stored record carries its own week key. -/
def wfGrouped (g : List (String × List (Int × LibUtils.WeeklyPR))) : Prop :=
  (g.map Prod.fst).Nodup ∧
  ∀ p ∈ g, ((p.2.map Prod.fst).Nodup ∧ ∀ q ∈ p.2, (Prod.snd q).week = q.1)

/-- The grouped structure holds a bucket for exercise `n` and week `wk`. -/
def hasBucket (g : List (String × List (Int × LibUtils.WeeklyPR)))
    (n : String) (wk : Int) : Prop :=
  ∃ p ∈ g, p.1 = n ∧ wk ∈ p.2.map Prod.fst



lemma computePRs_append (H : List WorkoutEntry) (w : WorkoutEntry) :
    computePRs (H ++ [w]) = prStep (computePRs H) w := by
  simp [computePRs, List.foldl_append]

lemma prStep_maxW (m : String → Option PRRec) (w : WorkoutEntry) (n : String) :
    (((prStep m w) n).getD emptyRec).maxWeightKg =
      if n = w.name then
        (match w.weightKg, ((m w.name).getD emptyRec).maxWeightKg with
          | none, p => p
          | some wt, none => some wt
          | some wt, some mw => if wt > mw then some wt else some mw)
      else ((m n).getD emptyRec).maxWeightKg := by
  by_cases hn : n = w.name
  · cases hw : w.weightKg <;>
      cases hp : ((m w.name).getD emptyRec).maxWeightKg <;>
        cases hv : ((m w.name).getD emptyRec).maxVolumeKg <;>
          simp [prStep, hn, hw, hp, hv] <;> split_ifs <;> simp_all [hp, hv] <;> split_ifs <;> simp_all [hp, hv]
  · simp [prStep, hn]

lemma prStep_maxV (m : String → Option PRRec) (w : WorkoutEntry) (n : String) :
    (((prStep m w) n).getD emptyRec).maxVolumeKg =
      if n = w.name then
        (match ((m w.name).getD emptyRec).maxVolumeKg with
          | none => some (entryVol w)
          | some mv => if entryVol w > mv then some (entryVol w) else some mv)
      else ((m n).getD emptyRec).maxVolumeKg := by
  by_cases hn : n = w.name
  · cases hw : w.weightKg <;>
      cases hp : ((m w.name).getD emptyRec).maxWeightKg <;>
        cases hv : ((m w.name).getD emptyRec).maxVolumeKg <;>
          simp [prStep, hn, hw, hp, hv] <;> split_ifs <;> simp_all [hp, hv] <;>
            split_ifs <;> simp_all [hp, hv] <;> linarith
  · simp [prStep, hn]

lemma priorMaxW_spec (H : List WorkoutEntry) (n : String) :
    (priorMaxW H n = none → ∀ e ∈ H, e.name = n → e.weightKg = none) ∧
    (∀ m, priorMaxW H n = some m →
      (∃ e ∈ H, e.name = n ∧ e.weightKg = some m) ∧
      ∀ e ∈ H, e.name = n → ∀ x, e.weightKg = some x → x ≤ m) := by
  induction H using List.reverseRecOn with
  | nil => simp [priorMaxW, computePRs, emptyRec]
  | append_singleton H w ih =>
    have hstep : priorMaxW (H ++ [w]) n =
        if n = w.name then
          (match w.weightKg, priorMaxW H w.name with
            | none, p => p
            | some wt, none => some wt
            | some wt, some mw => if wt > mw then some wt else some mw)
        else priorMaxW H n := by
      rw [priorMaxW, computePRs_append, prStep_maxW]; rfl
    by_cases hn : n = w.name
    · subst hn
      rw [hstep, if_pos rfl]
      cases hw : w.weightKg with
      | none =>
        simp only
        constructor
        · intro h0 e he hname
          rcases List.mem_append.mp he with h | h
          · exact ih.1 h0 e h hname
          · rw [List.mem_singleton.mp h]; exact hw
        · intro m hm
          obtain ⟨⟨e0, he0, hn0, hw0⟩, hub⟩ := ih.2 m hm
          refine ⟨⟨e0, List.mem_append.mpr (Or.inl he0), hn0, hw0⟩, ?_⟩
          intro e he hname x hx
          rcases List.mem_append.mp he with h | h
          · exact hub e h hname x hx
          · rw [List.mem_singleton.mp h] at hx; rw [hw] at hx; cases hx
      | some wt =>
        cases hp : priorMaxW H w.name with
        | none =>
          simp only
          constructor
          · intro h0; cases h0
          · intro m hm
            have hmw : m = wt := by cases hm; rfl
            subst hmw
            refine ⟨⟨w, List.mem_append.mpr (Or.inr (List.mem_singleton.mpr rfl)), rfl, hw⟩, ?_⟩
            intro e he hname x hx
            rcases List.mem_append.mp he with h | h
            · have := ih.1 hp e h hname; rw [this] at hx; cases hx
            · rw [List.mem_singleton.mp h] at hx; rw [hw] at hx
              cases hx; exact le_refl _
        | some mw =>
          by_cases hgt : wt > mw
          · simp only [if_pos hgt]
            constructor
            · intro h0; cases h0
            · intro m hm
              have hmw : m = wt := by cases hm; rfl
              subst hmw
              obtain ⟨hwit, hub⟩ := ih.2 mw hp
              refine ⟨⟨w, List.mem_append.mpr (Or.inr (List.mem_singleton.mpr rfl)), rfl, hw⟩, ?_⟩
              intro e he hname x hx
              rcases List.mem_append.mp he with h | h
              · exact le_of_lt (lt_of_le_of_lt (hub e h hname x hx) hgt)
              · rw [List.mem_singleton.mp h] at hx; rw [hw] at hx
                cases hx; exact le_refl _
          · simp only [if_neg hgt]
            constructor
            · intro h0; cases h0
            · intro m hm
              cases hm
              obtain ⟨⟨e0, he0, hn0, hw0⟩, hub⟩ := ih.2 mw hp
              refine ⟨⟨e0, List.mem_append.mpr (Or.inl he0), hn0, hw0⟩, ?_⟩
              intro e he hname x hx
              rcases List.mem_append.mp he with h | h
              · exact hub e h hname x hx
              · rw [List.mem_singleton.mp h] at hx; rw [hw] at hx
                cases hx; exact le_of_not_lt hgt
    · rw [hstep, if_neg hn]
      constructor
      · intro h0 e he hname
        rcases List.mem_append.mp he with h | h
        · exact ih.1 h0 e h hname
        · rw [List.mem_singleton.mp h] at hname; exact absurd hname.symm hn
      · intro m hm
        obtain ⟨⟨e0, he0, hn0, hw0⟩, hub⟩ := ih.2 m hm
        refine ⟨⟨e0, List.mem_append.mpr (Or.inl he0), hn0, hw0⟩, ?_⟩
        intro e he hname x hx
        rcases List.mem_append.mp he with h | h
        · exact hub e h hname x hx
        · rw [List.mem_singleton.mp h] at hname; exact absurd hname.symm hn

lemma priorMaxV_spec (H : List WorkoutEntry) (n : String) :
    (priorMaxV H n = none → ∀ e ∈ H, e.name ≠ n) ∧
    (∀ m, priorMaxV H n = some m →
      (∃ e ∈ H, e.name = n ∧ entryVol e = m) ∧
      ∀ e ∈ H, e.name = n → entryVol e ≤ m) := by
  induction H using List.reverseRecOn with
  | nil => simp [priorMaxV, computePRs, emptyRec]
  | append_singleton H w ih =>
    have hstep : priorMaxV (H ++ [w]) n =
        if n = w.name then
          (match priorMaxV H w.name with
            | none => some (entryVol w)
            | some mv => if entryVol w > mv then some (entryVol w) else some mv)
        else priorMaxV H n := by
      rw [priorMaxV, computePRs_append, prStep_maxV]; rfl
    by_cases hn : n = w.name
    · subst hn
      rw [hstep, if_pos rfl]
      cases hp : priorMaxV H w.name with
      | none =>
        simp only
        constructor
        · intro h0; cases h0
        · intro m hm
          cases hm
          refine ⟨⟨w, List.mem_append.mpr (Or.inr (List.mem_singleton.mpr rfl)), rfl, rfl⟩, ?_⟩
          intro e he hname
          rcases List.mem_append.mp he with h | h
          · exact absurd hname (ih.1 hp e h)
          · rw [List.mem_singleton.mp h]
      | some mv =>
        by_cases hgt : entryVol w > mv
        · simp only [if_pos hgt]
          constructor
          · intro h0; cases h0
          · intro m hm
            cases hm
            obtain ⟨hwit, hub⟩ := ih.2 mv hp
            refine ⟨⟨w, List.mem_append.mpr (Or.inr (List.mem_singleton.mpr rfl)), rfl, rfl⟩, ?_⟩
            intro e he hname
            rcases List.mem_append.mp he with h | h
            · exact le_of_lt (lt_of_le_of_lt (hub e h hname) hgt)
            · rw [List.mem_singleton.mp h]
        · simp only [if_neg hgt]
          constructor
          · intro h0; cases h0
          · intro m hm
            cases hm
            obtain ⟨⟨e0, he0, hn0, hv0⟩, hub⟩ := ih.2 mv hp
            refine ⟨⟨e0, List.mem_append.mpr (Or.inl he0), hn0, hv0⟩, ?_⟩
            intro e he hname
            rcases List.mem_append.mp he with h | h
            · exact hub e h hname
            · rw [List.mem_singleton.mp h]; exact le_of_not_lt hgt
    · rw [hstep, if_neg hn]
      constructor
      · intro h0 e he
        rcases List.mem_append.mp he with h | h
        · exact ih.1 h0 e h
        · rw [List.mem_singleton.mp h]; intro hc; exact hn hc.symm
      · intro m hm
        obtain ⟨⟨e0, he0, hn0, hv0⟩, hub⟩ := ih.2 m hm
        refine ⟨⟨e0, List.mem_append.mpr (Or.inl he0), hn0, hv0⟩, ?_⟩
        intro e he hname
        rcases List.mem_append.mp he with h | h
        · exact hub e h hname
        · rw [List.mem_singleton.mp h] at hname; exact absurd hname.symm hn

lemma markPRs_single (H : List WorkoutEntry) (w : WorkoutEntry) :
    markPRsBeforeInsert H [w] =
      [{ w with
          isPRMaxWeight := some (match w.weightKg, priorMaxW H w.name with
            | none, _ => false
            | some _, none => true
            | some wt, some mw => decide (wt > mw)),
          isPRVolume := some (match priorMaxV H w.name with
            | none => true
            | some mv => decide (entryVol w > mv)) }] := rfl

/-- C2: markPRs sets isPRMaxWeight true exactly when the entry's weight is
defined and strictly exceeds every previously recorded weight for the same
exercise name, and isPRVolume true exactly when its volume strictly exceeds
every prior volume for that name; ties produce neither flag, and with empty
history every weighted entry is a max-weight PR and every entry a volume PR. -/
theorem markPRs_flag_semantics :
    ∀ (H : List WorkoutEntry) (w : WorkoutEntry),
      ((markPRsBeforeInsert H [w]).head?.bind (fun e => e.isPRMaxWeight) = some true ↔
        ∃ wt, w.weightKg = some wt ∧
          ∀ e ∈ H, e.name = w.name → ∀ x, e.weightKg = some x → wt > x) ∧
      ((markPRsBeforeInsert H [w]).head?.bind (fun e => e.isPRVolume) = some true ↔
        ∀ e ∈ H, e.name = w.name → entryVol w > entryVol e) ∧
      ((markPRsBeforeInsert [] [w]).head?.bind (fun e => e.isPRMaxWeight) =
        some w.weightKg.isSome) ∧
      ((markPRsBeforeInsert [] [w]).head?.bind (fun e => e.isPRVolume) = some true) ∧
      ((markPRsBeforeInsert
          [⟨"h1", 0, "Squat", 1, 5, some 50, none, none, none⟩]
          [⟨"i1", 1, "Squat", 1, 5, some 50, none, none, none⟩]).map
        (fun e => (e.isPRMaxWeight, e.isPRVolume)) = [(some false, some false)]) := by
  intro H w
  refine ⟨?_, ?_, ?_, ?_, ?_⟩
  · rw [markPRs_single]
    simp only [List.head?_cons, Option.some_bind, Option.some.injEq]
    cases hw : w.weightKg with
    | none =>
      simp only
      constructor
      · intro h; cases h
      · rintro ⟨wt, hwt, -⟩; cases hwt
    | some wt =>
      cases hp : priorMaxW H w.name with
      | none =>
        simp only
        constructor
        · intro _
          refine ⟨wt, rfl, ?_⟩
          intro e he hname x hx
          have := (priorMaxW_spec H w.name).1 hp e he hname
          rw [this] at hx; cases hx
        · intro _; trivial
      | some mw =>
        simp only [decide_eq_true_eq]
        constructor
        · intro hgt
          refine ⟨wt, rfl, ?_⟩
          intro e he hname x hx
          have hub := ((priorMaxW_spec H w.name).2 mw hp).2 e he hname x hx
          exact lt_of_le_of_lt hub hgt
        · rintro ⟨wt2, hwt2, hall⟩
          have hwt2' : wt2 = wt := by cases hwt2; rfl
          subst hwt2'
          obtain ⟨⟨e0, he0, hn0, hw0⟩, -⟩ := (priorMaxW_spec H w.name).2 mw hp
          exact hall e0 he0 hn0 mw hw0
  · rw [markPRs_single]
    simp only [List.head?_cons, Option.some_bind, Option.some.injEq]
    cases hp : priorMaxV H w.name with
    | none =>
      simp only
      constructor
      · intro _
        intro e he hname
        exact absurd hname ((priorMaxV_spec H w.name).1 hp e he)
      · intro _; trivial
    | some mv =>
      simp only [decide_eq_true_eq]
      constructor
      · intro hgt e he hname
        have hub := ((priorMaxV_spec H w.name).2 mv hp).2 e he hname
        exact lt_of_le_of_lt hub hgt
      · intro hall
        obtain ⟨⟨e0, he0, hn0, hv0⟩, -⟩ := (priorMaxV_spec H w.name).2 mv hp
        rw [← hv0]
        exact hall e0 he0 hn0
  · rw [markPRs_single]
    cases hw : w.weightKg <;> simp [priorMaxW, computePRs, emptyRec, hw]
  · rw [markPRs_single]
    simp [priorMaxV, computePRs, emptyRec]
  · simp [markPRsBeforeInsert, computePRs, prStep, entryVol, emptyRec]

/-- C1: markPRs evaluates every incoming entry against the records of the
history alone: the i-th output entry equals the output of marking that entry
by itself, marking distributes over batch concatenation, and in a two-entry
batch the second entry's flags equal those from marking it alone. -/
theorem markPRs_batch_baseline :
    (∀ (H batch : List WorkoutEntry) (i : Nat),
      (markPRsBeforeInsert H batch)[i]? =
        (batch[i]?).bind (fun w => (markPRsBeforeInsert H [w])[0]?)) ∧
    (∀ (H l1 l2 : List WorkoutEntry),
      markPRsBeforeInsert H (l1 ++ l2) =
        markPRsBeforeInsert H l1 ++ markPRsBeforeInsert H l2) ∧
    (∀ (H : List WorkoutEntry) (A B : WorkoutEntry),
      (markPRsBeforeInsert H [A, B])[1]? = (markPRsBeforeInsert H [B])[0]?) := by
  refine ⟨?_, ?_, ?_⟩
  · intro H batch i
    simp only [markPRsBeforeInsert, List.getElem?_map]
    cases batch[i]? <;> rfl
  · intro H l1 l2
    simp [markPRsBeforeInsert]
  · intro H A B
    rfl

/-- C10: markPRs returns one output entry per incoming entry, in order, and
preserves every field other than the two PR flags (the embedding is pure, so
neither argument is mutated). -/
theorem markPRs_frame :
    ∀ (H I : List WorkoutEntry),
      (markPRsBeforeInsert H I).length = I.length ∧
      ∀ i : Nat, ((markPRsBeforeInsert H I)[i]?).map nonFlagFields =
        (I[i]?).map nonFlagFields := by
  intro H I
  constructor
  · simp [markPRsBeforeInsert]
  · intro i
    simp only [markPRsBeforeInsert, List.getElem?_map]
    cases I[i]? <;> rfl

/-- C6 counterexample: pairing toKg (ratio 0.45359237) with the utils fromKg
(ratio 0.453592) does not round-trip: starting from 1 lb it returns
45359237/45359200 ≈ 1.0000008, a deviation far above float rounding error. -/
theorem unit_roundtrip_counterexample :
    toKg (LibUtils.fromKg 1 WUnit.lb) WUnit.lb = 45359237 / 45359200 ∧
    toKg (LibUtils.fromKg 1 WUnit.lb) WUnit.lb ≠ 1 := by
  constructor <;> norm_num [toKg, LibUtils.fromKg, KG_PER_LB]

/-- C6 amended: the toKg/fromKg pair defined beside KG_PER_LB = 0.45359237
round-trips exactly in both directions for both units, and the utils fromKg
agrees for the kg identity case. -/
theorem unit_roundtrip_amended :
    ∀ (v : ℚ) (u : WUnit),
      toKg (fromKg v u) u = v ∧ fromKg (toKg v u) u = v ∧
      LibUtils.fromKg v WUnit.kg = v := by
  intro v u
  have hk : KG_PER_LB ≠ 0 := by norm_num [KG_PER_LB]
  cases u <;>
    simp [toKg, fromKg, LibUtils.fromKg, div_mul_cancel₀, mul_div_cancel_right₀, hk]

/-- C9: the adherence calculator is total: completionRate is the rounded
percentage exactly when expectedWorkouts is positive and 0 otherwise (in
particular when no full week has elapsed), with expectedWorkouts =
floor(daysSinceStart / 7) * expectedDaysPerWeek and completedWorkouts the
number of distinct logged dates. -/
theorem adherence_completion_rate :
    ∀ (ws : List WorkoutEntry) (s t : Int) (edpw : Nat),
      (planMetrics ws s t edpw).completionRate =
        (if 0 < (planMetrics ws s t edpw).expectedWorkouts then
          round ((((planMetrics ws s t edpw).completedWorkouts : ℚ) /
            ((planMetrics ws s t edpw).expectedWorkouts : ℚ)) * 100)
        else 0) ∧
      (planMetrics ws s t edpw).expectedWorkouts = countDaysBetween s t / 7 * edpw ∧
      (planMetrics ws s t edpw).weeksElapsed = countDaysBetween s t / 7 ∧
      (planMetrics ws s t edpw).completedWorkouts = (ws.map (·.date)).toFinset.card ∧
      (planMetrics ws s s edpw).expectedWorkouts = 0 ∧
      (planMetrics ws s s edpw).completionRate = 0 := by
  intro ws s t edpw
  refine ⟨rfl, rfl, rfl, ?_, ?_, ?_⟩
  · simp [planMetrics, List.card_toFinset]
  · simp [planMetrics, countDaysBetween]
  · simp [planMetrics, countDaysBetween]

/-- C4 counterexample: at the plan-preview suggestion site, a prior entry
below the rep max (reps 9 in range 8-12, weight 40 kg) yields reps 10 but NO
carried-forward weight suggestion, contradicting the claim that the prior
weight is carried forward at every call site. -/
theorem po_carry_weight_counterexample :
    applyProgressiveOverload ⟨"c4", 0, "Bench Press", 1, 9, some 40, none, none, none⟩
        (some (8, 12)) (some 10) WUnit.kg = ⟨some 10, none⟩ ∧
    (applyProgressiveOverload ⟨"c4", 0, "Bench Press", 1, 9, some 40, none, none, none⟩
        (some (8, 12)) (some 10) WUnit.kg).suggestedWeight ≠
      some (roundDisplayUnit (fromKg 40 WUnit.kg) WUnit.kg) := by
  constructor
  · rfl
  · simp [applyProgressiveOverload]

/-- C4 amended: for a prior entry strictly below the rep max, session-plan
construction and manual-log prefill suggest one more rep with the prior
weight carried forward (converted and display-rounded), while the
plan-preview suggestion suggests one more rep but leaves the weight
unsuggested. -/
theorem po_below_max_amended :
    ∀ (p : WorkoutEntry) (repLow repHigh : Nat) (unit : WUnit),
      p.reps < repHigh →
      buildSessionPlan (some p) repLow repHigh unit =
        (p.reps + 1, p.weightKg.map fun pw => roundDisplayUnit (fromKg pw unit) unit) ∧
      manualPrefillReps (some p) repLow repHigh = p.reps + 1 ∧
      manualPrefillWeight p (some (repLow, repHigh)) unit =
        p.weightKg.map (fun pw => roundDisplayUnit (fromKg pw unit) unit) ∧
      ∀ (lo sr : Nat), applyProgressiveOverload p (some (lo, repHigh)) (some sr) unit =
        ⟨some (p.reps + 1), none⟩ := by
  intro p repLow repHigh unit h
  have hnot : ¬ (repHigh ≠ 0 ∧ p.reps ≥ repHigh) := by omega
  have hlt : ¬ (p.reps ≥ repHigh) := by omega
  refine ⟨?_, ?_, ?_, ?_⟩
  · simp [buildSessionPlan, hnot]
  · simp [manualPrefillReps, hlt]
  · cases hw : p.weightKg <;> simp [manualPrefillWeight, hlt, hw]
  · intro lo sr
    simp [applyProgressiveOverload, h]

theorem po_below_max_amended_witness :
    buildSessionPlan (some ⟨"w4", 0, "Bench", 1, 11, some 40, none, none, none⟩) 8 12
      WUnit.kg = (12, some 40) := by
  have h := (po_below_max_amended ⟨"w4", 0, "Bench", 1, 11, some 40, none, none, none⟩
    8 12 WUnit.kg (by norm_num)).1
  rw [h]
  norm_num [roundDisplayUnit, fromKg, round_eq]

/-- C5 counterexample: the suggestion helper getProgressiveTarget increments
an at-max prior weight by a flat 5 (rounded to 0.1) with no display-unit
distinction, so with prior reps 12 in range 8-12 and weight 40 it suggests
45, not the claimed 40 + 2.5 for a kg display. -/
theorem po_fixed_increment_counterexample :
    getProgressiveTarget 12 40 8 12 = (8, 45) ∧
    (45 : ℚ) ≠ 40 + PO_INCR WUnit.kg := by
  constructor
  · norm_num [getProgressiveTarget, round_eq]
  · norm_num [PO_INCR]

/-- C5 amended: session-plan construction and manual-log prefill reset an
at-max prior to the range minimum and raise a recorded prior weight by
+2.5 kg (kg display) or +5 lb (lb display, applied as 5·KG_PER_LB in
kilograms), then display-round; the plan-preview suggestion does the same
only when the prior has a recorded weight and makes no suggestion otherwise;
with no prior entry the suggestion is the range minimum with no weight. The
unused helper getProgressiveTarget instead adds a flat 5. -/
theorem po_at_max_amended :
    ∀ (p : WorkoutEntry) (repLow repHigh : Nat) (unit : WUnit) (pw : ℚ),
      repHigh ≠ 0 → p.reps ≥ repHigh → p.weightKg = some pw →
      buildSessionPlan (some p) repLow repHigh unit =
        (repLow, some (roundDisplayUnit (fromKg (pw + poIncKg unit) unit) unit)) ∧
      manualPrefillReps (some p) repLow repHigh = repLow ∧
      manualPrefillWeight p (some (repLow, repHigh)) unit =
        some (roundDisplayUnit (fromKg (pw + poIncKg unit) unit) unit) ∧
      (∀ sr : Nat, applyProgressiveOverload p (some (repLow, repHigh)) (some sr) unit =
        ⟨some repLow, some (roundDisplayUnit (fromKg (pw + poIncKg unit) unit) unit)⟩) ∧
      (∀ (sr : Nat) (q : WorkoutEntry), q.weightKg = none → q.reps ≥ repHigh →
        applyProgressiveOverload q (some (repLow, repHigh)) (some sr) unit = ⟨none, none⟩) ∧
      (fromKg (pw + poIncKg WUnit.kg) WUnit.kg = fromKg pw WUnit.kg + 5 / 2) ∧
      (fromKg (pw + poIncKg WUnit.lb) WUnit.lb = fromKg pw WUnit.lb + 5) ∧
      buildSessionPlan none repLow repHigh unit = (repLow, none) ∧
      manualPrefillReps none repLow repHigh = repLow := by
  intro p repLow repHigh unit pw hne hge hw
  have hik : poIncKg unit = (if unit = WUnit.lb then 5 * KG_PER_LB else 5 / 2) := by
    cases unit <;> norm_num [poIncKg, PO_INCR] <;> simp
  refine ⟨?_, ?_, ?_, ?_, ?_, ?_, ?_, rfl, rfl⟩
  · simp [buildSessionPlan, hne, hge, hw]
  · simp [manualPrefillReps, hge]
  · simp [manualPrefillWeight, hge, hw]
  · intro sr
    simp [applyProgressiveOverload, Nat.not_lt.mpr hge, hw, ← hik]
  · intro sr q hqw hqge
    simp [applyProgressiveOverload, Nat.not_lt.mpr hqge, hqw]
  · norm_num [fromKg, poIncKg, PO_INCR]
  · have hk : KG_PER_LB ≠ 0 := by norm_num [KG_PER_LB]
    have hlb : poIncKg WUnit.lb = 5 * KG_PER_LB := by norm_num [poIncKg, PO_INCR]
    rw [hlb]
    simp only [fromKg]
    field_simp

theorem po_at_max_amended_witness :
    buildSessionPlan (some ⟨"w5", 0, "Bench", 1, 12, some 40, none, none, none⟩) 8 12
      WUnit.kg = (8, some (85 / 2)) := by
  have h := (po_at_max_amended ⟨"w5", 0, "Bench", 1, 12, some 40, none, none, none⟩
    8 12 WUnit.kg 40 (by norm_num) (by norm_num) rfl).1
  rw [h]
  norm_num [roundDisplayUnit, fromKg, poIncKg, PO_INCR, round_eq, KG_PER_LB]

/-- C3 counterexample: a bodyweight entry (no recorded weight, 5 reps) has PR
volume 5 = reps · 1, but the weekly aggregation computes its bucket volume as
(weightKg ?? 0) · reps · sets = 0, not reps · (weightKg ?? 1) = 5. -/
theorem volume_formula_counterexample :
    entryVol ⟨"p1", 3, "Pushup", 1, 5, none, none, none, none⟩ = 5 ∧
    LibUtils.aggregatePRsByWeek [⟨"p1", 3, "Pushup", 1, 5, none, none, none, none⟩] =
      [("Pushup", [⟨3, 0, 0⟩])] ∧
    (0 : ℚ) ≠ 5 := by
  refine ⟨?_, ?_, by norm_num⟩
  · norm_num [entryVol]
  · simp [LibUtils.aggregatePRsByWeek, LibUtils.aggStep, LibUtils.updEx,
      LibUtils.getWeekLabel, LibUtils.weekday, List.insertionSort]
    norm_num

/-- C3 amended: PR detection computes an entry's volume as
reps · (weightKg ?? 1), so a weightless entry contributes its rep count; the
weekly aggregation instead computes (weightKg ?? 0) · reps · sets per entry,
as its singleton output exhibits. -/
theorem volume_formula_amended :
    (∀ w : WorkoutEntry, entryVol w = (w.reps : ℚ) * (w.weightKg.getD 1)) ∧
    (∀ w : WorkoutEntry, w.weightKg = none → entryVol w = (w.reps : ℚ)) ∧
    (∀ w : WorkoutEntry, w.name ≠ "" → w.sets ≠ 0 →
      LibUtils.aggregatePRsByWeek [w] =
        [(w.name, [⟨LibUtils.getWeekLabel w.date,
          (w.weightKg.getD 0) * (w.reps : ℚ) * (w.sets : ℚ), w.weightKg.getD 0⟩])]) := by
  refine ⟨fun w => rfl, ?_, ?_⟩
  · intro w hw; simp [entryVol, hw]
  · intro w hn hs
    simp [LibUtils.aggregatePRsByWeek, LibUtils.aggStep, hn, hs, LibUtils.updEx,
      List.insertionSort, List.orderedInsert]

theorem volume_formula_amended_witness :
    LibUtils.aggregatePRsByWeek [⟨"p2", 10, "Row", 2, 8, some 30, none, none, none⟩] =
      [("Row", [⟨10, 480, 30⟩])] := by
  have h := volume_formula_amended.2.2 ⟨"p2", 10, "Row", 2, 8, some 30, none, none, none⟩
    (by simp) (by simp)
  rw [h]
  norm_num [LibUtils.getWeekLabel, LibUtils.weekday]

lemma updWeek_keys (inner : List (Int × LibUtils.WeeklyPR)) (wk : Int) (v wt : ℚ) :
    (LibUtils.updWeek inner wk v wt).map Prod.fst =
      if wk ∈ inner.map Prod.fst then inner.map Prod.fst
      else inner.map Prod.fst ++ [wk] := by
  induction inner with
  | nil => simp [LibUtils.updWeek]
  | cons p t ih =>
    obtain ⟨k, pr⟩ := p
    by_cases hk : k = wk
    · subst hk; simp [LibUtils.updWeek]
    · simp only [LibUtils.updWeek, if_neg hk, List.map_cons, ih, List.mem_cons]
      by_cases hm : wk ∈ t.map Prod.fst
      · simp [hm]
      · simp [hm, Ne.symm hk]

lemma updWeek_week_inv (inner : List (Int × LibUtils.WeeklyPR)) (wk : Int) (v wt : ℚ)
    (h : ∀ q ∈ inner, (Prod.snd q).week = q.1) :
    ∀ q ∈ LibUtils.updWeek inner wk v wt, (Prod.snd q).week = q.1 := by
  induction inner with
  | nil =>
    intro q hq
    simp [LibUtils.updWeek] at hq
    rw [hq]
  | cons p t ih =>
    obtain ⟨k, pr⟩ := p
    by_cases hk : k = wk
    · subst hk
      intro q hq
      have hred : LibUtils.updWeek ((k, pr) :: t) k v wt =
          (k, ⟨pr.week, max pr.volume v, max pr.weight wt⟩) :: t := by
        simp [LibUtils.updWeek]
      rw [hred] at hq
      cases hq with
      | head => exact h (k, pr) (List.mem_cons_self _ _)
      | tail _ hq => exact h q (List.mem_cons_of_mem _ hq)
    · intro q hq
      simp only [LibUtils.updWeek, if_neg hk, List.mem_cons] at hq
      rcases hq with rfl | hq
      · exact h (k, pr) (List.mem_cons_self _ _)
      · exact ih (fun r hr => h r (List.mem_cons_of_mem _ hr)) q hq

lemma updWeek_keys_nodup (inner : List (Int × LibUtils.WeeklyPR)) (wk : Int) (v wt : ℚ)
    (h : (inner.map Prod.fst).Nodup) :
    ((LibUtils.updWeek inner wk v wt).map Prod.fst).Nodup := by
  rw [updWeek_keys]
  by_cases hm : wk ∈ inner.map Prod.fst
  · simpa [hm] using h
  · simp [hm, List.nodup_append, h]

lemma updEx_keys (g : List (String × List (Int × LibUtils.WeeklyPR))) (ex : String)
    (wk : Int) (v wt : ℚ) :
    (LibUtils.updEx g ex wk v wt).map Prod.fst =
      if ex ∈ g.map Prod.fst then g.map Prod.fst
      else g.map Prod.fst ++ [ex] := by
  induction g with
  | nil => simp [LibUtils.updEx]
  | cons p t ih =>
    obtain ⟨n, inner⟩ := p
    by_cases hn : n = ex
    · subst hn; simp [LibUtils.updEx]
    · simp only [LibUtils.updEx, if_neg hn, List.map_cons, ih, List.mem_cons]
      by_cases hm : ex ∈ t.map Prod.fst
      · simp [hm]
      · simp [hm, Ne.symm hn]

lemma updEx_keys_nodup (g : List (String × List (Int × LibUtils.WeeklyPR))) (ex : String)
    (wk : Int) (v wt : ℚ) (h : (g.map Prod.fst).Nodup) :
    ((LibUtils.updEx g ex wk v wt).map Prod.fst).Nodup := by
  rw [updEx_keys]
  by_cases hm : ex ∈ g.map Prod.fst
  · simpa [hm] using h
  · simp [hm, List.nodup_append, h]

lemma updEx_mem_cases (g : List (String × List (Int × LibUtils.WeeklyPR))) (ex : String)
    (wk : Int) (v wt : ℚ) (p : String × List (Int × LibUtils.WeeklyPR))
    (hp : p ∈ LibUtils.updEx g ex wk v wt) :
    p ∈ g ∨ (∃ inner, (p.1, inner) ∈ g ∧ p.2 = LibUtils.updWeek inner wk v wt) ∨
      p = (ex, [(wk, ⟨wk, v, wt⟩)]) := by
  induction g with
  | nil =>
    simp [LibUtils.updEx] at hp
    right; right; rw [hp]
  | cons hd t ih =>
    obtain ⟨n, inner⟩ := hd
    by_cases hn : n = ex
    · subst hn
      have hred : LibUtils.updEx ((n, inner) :: t) n wk v wt =
          (n, LibUtils.updWeek inner wk v wt) :: t := by
        simp [LibUtils.updEx]
      rw [hred] at hp
      cases hp with
      | head => right; left; exact ⟨inner, List.mem_cons_self _ _, rfl⟩
      | tail _ hp => left; exact List.mem_cons_of_mem _ hp
    · simp only [LibUtils.updEx, if_neg hn, List.mem_cons] at hp
      rcases hp with rfl | hp
      · left; exact List.mem_cons_self _ _
      · rcases ih hp with h | ⟨inner2, h2, h3⟩ | h
        · left; exact List.mem_cons_of_mem _ h
        · right; left; exact ⟨inner2, List.mem_cons_of_mem _ h2, h3⟩
        · right; right; exact h

lemma wf_updEx (g : List (String × List (Int × LibUtils.WeeklyPR))) (ex : String)
    (wk : Int) (v wt : ℚ) (h : wfGrouped g) :
    wfGrouped (LibUtils.updEx g ex wk v wt) := by
  constructor
  · exact updEx_keys_nodup g ex wk v wt h.1
  · intro p hp
    rcases updEx_mem_cases g ex wk v wt p hp with hg | ⟨inner, hmem, hupd⟩ | heq
    · exact h.2 p hg
    · have hi := h.2 (p.1, inner) hmem
      refine ⟨?_, ?_⟩
      · rw [hupd]; exact updWeek_keys_nodup inner wk v wt hi.1
      · rw [hupd]; exact updWeek_week_inv inner wk v wt hi.2
    · rw [heq]; exact ⟨by simp, by simp⟩

lemma wf_aggFold (ws : List WorkoutEntry) :
    ∀ g, wfGrouped g → wfGrouped (ws.foldl LibUtils.aggStep g) := by
  induction ws with
  | nil => intro g h; exact h
  | cons a t ih =>
    intro g h
    apply ih
    simp only [LibUtils.aggStep]
    split
    · exact h
    · exact wf_updEx g a.name (LibUtils.getWeekLabel a.date) _ _ h

lemma hasBucket_updEx_self (g : List (String × List (Int × LibUtils.WeeklyPR)))
    (ex : String) (wk : Int) (v wt : ℚ) :
    hasBucket (LibUtils.updEx g ex wk v wt) ex wk := by
  induction g with
  | nil =>
    exact ⟨(ex, [(wk, ⟨wk, v, wt⟩)]), by simp [LibUtils.updEx], rfl, by simp⟩
  | cons hd t ih =>
    obtain ⟨n, inner⟩ := hd
    by_cases hn : n = ex
    · subst hn
      refine ⟨(n, LibUtils.updWeek inner wk v wt), by simp [LibUtils.updEx], rfl, ?_⟩
      rw [updWeek_keys]
      by_cases hm : wk ∈ inner.map Prod.fst
      · simpa [hm] using hm
      · simp [hm]
    · obtain ⟨p, hp, h1, h2⟩ := ih
      refine ⟨p, ?_, h1, h2⟩
      simp only [LibUtils.updEx, if_neg hn]
      exact List.mem_cons_of_mem _ hp

lemma hasBucket_updEx_mono (g : List (String × List (Int × LibUtils.WeeklyPR)))
    (ex : String) (wk : Int) (v wt : ℚ) (n : String) (wk2 : Int)
    (h : hasBucket g n wk2) : hasBucket (LibUtils.updEx g ex wk v wt) n wk2 := by
  induction g with
  | nil => rcases h with ⟨p, hp, -, -⟩; simp at hp
  | cons hd t ih =>
    obtain ⟨m, inner⟩ := hd
    obtain ⟨p, hp, h1, h2⟩ := h
    by_cases hm : m = ex
    · subst hm
      have hred : LibUtils.updEx ((m, inner) :: t) m wk v wt =
          (m, LibUtils.updWeek inner wk v wt) :: t := by
        simp [LibUtils.updEx]
      rw [hred]
      cases hp with
      | head =>
        refine ⟨(m, LibUtils.updWeek inner wk v wt), List.mem_cons_self _ _, h1, ?_⟩
        rw [updWeek_keys]
        by_cases hmm : wk ∈ inner.map Prod.fst
        · simpa [hmm] using h2
        · simp only [if_neg hmm, List.mem_append]
          exact Or.inl h2
      | tail _ hp =>
        exact ⟨p, List.mem_cons_of_mem _ hp, h1, h2⟩
    · have hred : LibUtils.updEx ((m, inner) :: t) ex wk v wt =
          (m, inner) :: LibUtils.updEx t ex wk v wt := by
        simp [LibUtils.updEx, hm]
      rw [hred]
      cases hp with
      | head => exact ⟨(m, inner), List.mem_cons_self _ _, h1, h2⟩
      | tail _ hp =>
        obtain ⟨q, hq, hq1, hq2⟩ := ih ⟨p, hp, h1, h2⟩
        exact ⟨q, List.mem_cons_of_mem _ hq, hq1, hq2⟩

lemma hasBucket_fold_mono (ws : List WorkoutEntry) :
    ∀ g n wk, hasBucket g n wk → hasBucket (ws.foldl LibUtils.aggStep g) n wk := by
  induction ws with
  | nil => intro g n wk h; exact h
  | cons a t ih =>
    intro g n wk h
    apply ih
    simp only [LibUtils.aggStep]
    split
    · exact h
    · exact hasBucket_updEx_mono g a.name (LibUtils.getWeekLabel a.date) _ _ n wk h

lemma hasBucket_fold_mem (ws : List WorkoutEntry) :
    ∀ (g : List (String × List (Int × LibUtils.WeeklyPR))) (e : WorkoutEntry),
    e ∈ ws → e.name ≠ "" → e.sets ≠ 0 →
    hasBucket (ws.foldl LibUtils.aggStep g) e.name (LibUtils.getWeekLabel e.date) := by
  induction ws with
  | nil => intro g e he; simp at he
  | cons a t ih =>
    intro g e he hn hs
    rcases List.mem_cons.mp he with heq | ht
    · subst heq
      rw [List.foldl_cons]
      apply hasBucket_fold_mono
      have hred : LibUtils.aggStep g e =
          LibUtils.updEx g e.name (LibUtils.getWeekLabel e.date)
            ((e.weightKg.getD 0) * (e.reps : ℚ) * (e.sets : ℚ)) (e.weightKg.getD 0) := by
        simp [LibUtils.aggStep, hn, hs]
      rw [hred]
      exact hasBucket_updEx_self _ _ _ _ _
    · exact ih (LibUtils.aggStep g a) e ht hn hs

lemma pair_eq_of_nodup_keys {α β : Type} {l : List (α × β)}
    (h : (l.map Prod.fst).Nodup) {p q : α × β}
    (hp : p ∈ l) (hq : q ∈ l) (hfst : p.1 = q.1) : p = q := by
  induction l with
  | nil => simp at hp
  | cons a t ih =>
    simp only [List.map_cons, List.nodup_cons] at h
    rcases List.mem_cons.mp hp with hpe | hpt
    · rcases List.mem_cons.mp hq with hqe | hqt
      · rw [hpe, hqe]
      · exfalso
        apply h.1
        rw [← hpe, hfst]
        exact List.mem_map_of_mem Prod.fst hqt
    · rcases List.mem_cons.mp hq with hqe | hqt
      · exfalso
        apply h.1
        rw [← hqe, ← hfst]
        exact List.mem_map_of_mem Prod.fst hpt
      · exact ih h.2 hpt hqt

/-- C7: the live weekly aggregation assigns every surviving entry the bucket
key of the Sunday that starts its week (the entry's day minus its weekday
number, Sunday = 0), and each exercise's output series is sorted ascending by
that week key. -/
theorem weekly_bucket_sunday_sorted :
    (∀ d : Int, LibUtils.getWeekLabel d = d - LibUtils.weekday d ∧
      LibUtils.weekday (LibUtils.getWeekLabel d) = 0 ∧
      LibUtils.getWeekLabel d ≤ d ∧ d < LibUtils.getWeekLabel d + 7) ∧
    (∀ (ws : List WorkoutEntry) (e : WorkoutEntry), e ∈ ws → e.name ≠ "" → e.sets ≠ 0 →
      ∃ p ∈ LibUtils.aggregatePRsByWeek ws, p.1 = e.name ∧
        ∃ pr ∈ p.2, pr.week = LibUtils.getWeekLabel e.date) ∧
    (∀ ws : List WorkoutEntry, ∀ p ∈ LibUtils.aggregatePRsByWeek ws,
      List.Pairwise (fun a b => a.week ≤ b.week) p.2) := by
  refine ⟨?_, ?_, ?_⟩
  · intro d
    have hnn : 0 ≤ (d + 4).emod 7 := Int.emod_nonneg _ (by norm_num)
    have hlt : (d + 4).emod 7 < 7 := Int.emod_lt_of_pos _ (by norm_num)
    refine ⟨rfl, ?_, ?_, ?_⟩
    · simp only [LibUtils.weekday, LibUtils.getWeekLabel]
      have h1 : (d + 4).emod 7 = d + 4 - 7 * ((d + 4).ediv 7) := Int.emod_def (d + 4) 7
      have h2 : d - (d + 4).emod 7 + 4 = 7 * ((d + 4).ediv 7) := by linarith
      rw [h2]
      exact Int.mul_emod_right 7 _
    · simp only [LibUtils.weekday, LibUtils.getWeekLabel]
      linarith
    · simp only [LibUtils.weekday, LibUtils.getWeekLabel]
      linarith
  · intro ws e he hn hs
    have hwf := wf_aggFold ws [] ⟨by simp, by simp⟩
    obtain ⟨p0, hp0, h1, h2⟩ := hasBucket_fold_mem ws [] e he hn hs
    refine ⟨(p0.1, List.insertionSort LibUtils.byWeekLE (p0.2.map Prod.snd)), ?_, h1, ?_⟩
    · simp only [LibUtils.aggregatePRsByWeek]
      exact List.mem_map_of_mem _ hp0
    · obtain ⟨q, hq, hq1⟩ := List.mem_map.mp h2
      refine ⟨q.2, ?_, ?_⟩
      · rw [List.mem_insertionSort]
        exact List.mem_map_of_mem Prod.snd hq
      · have hinv := (hwf.2 p0 hp0).2 q hq
        rw [hinv, hq1]
  · intro ws p hp
    simp only [LibUtils.aggregatePRsByWeek] at hp
    obtain ⟨p0, hp0, heq⟩ := List.mem_map.mp hp
    subst heq
    exact (List.sorted_insertionSort LibUtils.byWeekLE (p0.2.map Prod.snd)).imp
      (fun hab => hab)

theorem weekly_bucket_sunday_sorted_witness :
    ∃ p ∈ LibUtils.aggregatePRsByWeek
        [⟨"w7", 3, "Squat", 1, 5, some 50, none, none, none⟩],
      p.1 = "Squat" ∧ ∃ pr ∈ p.2, pr.week = LibUtils.getWeekLabel 3 := by
  exact weekly_bucket_sunday_sorted.2.1
    [⟨"w7", 3, "Squat", 1, 5, some 50, none, none, none⟩]
    ⟨"w7", 3, "Squat", 1, 5, some 50, none, none, none⟩
    (List.mem_singleton.mpr rfl) (by decide) (by decide)

/-- C8 counterexample: an entry with sets = 0 is skipped by the weekly
aggregation entirely, so it contributes to no (week, exercise) bucket even
though it is in the history. -/
theorem weekly_bucket_exactly_one_counterexample :
    LibUtils.aggregatePRsByWeek [⟨"c8", 0, "Squat", 0, 5, some 50, none, none, none⟩] =
      [] ∧
    (⟨"c8", 0, "Squat", 0, 5, some 50, none, none, none⟩ : WorkoutEntry) ∈
      [(⟨"c8", 0, "Squat", 0, 5, some 50, none, none, none⟩ : WorkoutEntry)] := by
  constructor
  · simp [LibUtils.aggregatePRsByWeek, LibUtils.aggStep]
  · exact List.mem_singleton.mpr rfl

/-- C8 amended: every entry with a nonempty exercise name and a nonzero sets
count contributes to exactly one (week, exercise) bucket: its exercise name
keys exactly one output series, and within that series exactly one record
carries the entry's week key; entries with empty name or sets = 0 are
skipped. -/
theorem weekly_bucket_exactly_one_amended :
    ∀ (ws : List WorkoutEntry) (e : WorkoutEntry), e ∈ ws → e.name ≠ "" → e.sets ≠ 0 →
      ((LibUtils.aggregatePRsByWeek ws).map Prod.fst).count e.name = 1 ∧
      ∀ p ∈ LibUtils.aggregatePRsByWeek ws, p.1 = e.name →
        (p.2.map (fun pr => pr.week)).count (LibUtils.getWeekLabel e.date) = 1 := by
  intro ws e he hn hs
  have hwf := wf_aggFold ws [] ⟨by simp, by simp⟩
  obtain ⟨p0, hp0, h1, h2⟩ := hasBucket_fold_mem ws [] e he hn hs
  constructor
  · have hkeys : (LibUtils.aggregatePRsByWeek ws).map Prod.fst =
        (ws.foldl LibUtils.aggStep []).map Prod.fst := by
      simp only [LibUtils.aggregatePRsByWeek, List.map_map]
      rfl
    rw [hkeys]
    refine List.count_eq_one_of_mem hwf.1 ?_
    rw [← h1]
    exact List.mem_map_of_mem Prod.fst hp0
  · intro p hp hpf
    simp only [LibUtils.aggregatePRsByWeek] at hp
    obtain ⟨p1, hp1, heq⟩ := List.mem_map.mp hp
    have hp11 : p1.1 = e.name := by rw [← hpf, ← heq]
    have hpp : p1 = p0 := pair_eq_of_nodup_keys hwf.1 hp1 hp0 (by rw [hp11, h1])
    have h3 : p.2 = List.insertionSort LibUtils.byWeekLE (p1.2.map Prod.snd) := by
      rw [← heq]
    have hcongr : (p1.2.map Prod.snd).map (fun pr : LibUtils.WeeklyPR => pr.week) =
        p1.2.map Prod.fst := by
      rw [List.map_map]
      exact List.map_congr_left (fun q hq => (hwf.2 p1 hp1).2 q hq)
    have hperm : (p.2.map (fun pr : LibUtils.WeeklyPR => pr.week)).Perm
        (p1.2.map Prod.fst) := by
      rw [h3, ← hcongr]
      exact (List.perm_insertionSort LibUtils.byWeekLE (p1.2.map Prod.snd)).map _
    rw [hperm.count_eq]
    refine List.count_eq_one_of_mem (hwf.2 p1 hp1).1 ?_
    rw [hpp]
    exact h2

theorem weekly_bucket_exactly_one_amended_witness :
    ((LibUtils.aggregatePRsByWeek
        [⟨"w8", 6, "Deadlift", 1, 5, some 100, none, none, none⟩]).map
      Prod.fst).count "Deadlift" = 1 := by
  exact (weekly_bucket_exactly_one_amended
    [⟨"w8", 6, "Deadlift", 1, 5, some 100, none, none, none⟩]
    ⟨"w8", 6, "Deadlift", 1, 5, some 100, none, none, none⟩
    (List.mem_singleton.mpr rfl) (by decide) (by decide)).1
